import Mathlib

/-!
Verification of the same-origin web crawler (`WebCrawler` in `main.py`).

The crawler is embedded shallowly:

* `Page` is the result of a successful fetch-and-parse of one URL: the
  extracted text (`soup.get_text()`) and the `href` attributes of all anchor
  tags (`link.get('href')`, which is `none` for an anchor with no `href`).
* `CrawlError` models the two exception classes the source distinguishes
  (`requests.exceptions.RequestException` and any other `Exception`).
* `Site` bundles the external collaborators: a finite page table describing
  the outcome of `requests.get` + `raise_for_status` + BeautifulSoup parsing
  for each URL (URLs absent from the table fail with a transport error), and
  the URL resolver (`urljoin`).
* `CrawlerState` is the mutable state of a `WebCrawler` instance: `index`
  (an insertion-ordered URL → text mapping, as a Python `dict` is) and
  `visited`.  The extra field `fetchLog` is ghost instrumentation recording
  every call made to the fetch collaborator, in order; it lets theorems talk
  about "performs no fetch".
* `crawl` is fuel-indexed to express the recursion; `crawlTop` runs it with
  fuel `site.pages.length + 1`, which is proven sufficient for the traversal
  to complete (`pendingOk` strictly decreases at every level of recursion
  that actually expands a page).
-/

/-- Outcome of a successful fetch and parse of one page: the extracted text and
the raw `href` attribute of each anchor tag (`none` when the anchor has no
`href` attribute, matching `link.get('href')`). -/
structure Page where
  text : String
  hrefs : List (Option String)
deriving DecidableEq

/-- The two kinds of exception the crawler catches: `request` models
`requests.exceptions.RequestException` (transport failure or bad status from
`raise_for_status`), `other` models any other `Exception` (e.g. a parse
failure). -/
inductive CrawlError where
  | request (msg : String)
  | other (msg : String)
deriving DecidableEq

/-- The external collaborators of the crawl engine: a finite table giving, for
each URL the site knows, the outcome of fetching and parsing it, plus the URL
resolver (`urljoin` in the source). URLs not in the table fail with a
transport error. -/
structure Site where
  pages : List (String × Except CrawlError Page)
  resolve : String → String → String

/-- Fetch a URL: `requests.get` + `raise_for_status` + BeautifulSoup parsing,
collapsed into one call to the page table. -/
def Site.fetch (site : Site) (url : String) : Except CrawlError Page :=
  match site.pages.lookup url with
  | some r => r
  | none => Except.error (CrawlError.request "connection error")

/-- State of a `WebCrawler` instance: `self.index` (insertion-ordered, as a
Python dict), `self.visited`, and the ghost `fetchLog` recording each call to
the fetch collaborator in order. -/
structure CrawlerState where
  index : List (String × String)
  visited : List String
  fetchLog : List String
deriving DecidableEq

/-- The state of a freshly constructed `WebCrawler` (`__init__`). -/
def initState : CrawlerState := ⟨[], [], []⟩

/-- Character-level prefix test, the semantics of Python's
`str.startswith`. -/
def charsPre : List Char → List Char → Bool
  | [], _ => true
  | _ :: _, [] => false
  | a :: as, b :: bs => a == b && charsPre as bs

/-- The in-scope test on line 33 of the source:
`href.startswith(base_url or url)`, a literal string-prefix check. -/
def inScope (url basePrefix : String) : Bool :=
  charsPre basePrefix.data url.data

/-- Insert or overwrite the text stored for a URL
(`self.index[url] = soup.get_text()`): a Python dict assignment keeps the
position of an existing key and appends a new key at the end. -/
def indexPut (idx : List (String × String)) (url text : String) :
    List (String × String) :=
  if idx.any (fun p => p.1 == url) then
    idx.map (fun p => if p.1 == url then (p.1, text) else p)
  else
    idx ++ [(url, text)]

/-- The visited-set guard of lines 15–20: check membership and insert if
absent, returning whether the URL was newly marked (the `tryMark` operation of
the specification). -/
def tryMark (url : String) (st : CrawlerState) : Bool × CrawlerState :=
  if url ∈ st.visited then (false, st)
  else (true, { st with visited := url :: st.visited })

/-- The effective base `base_url or url` of lines 32–35: Python's `or` falls
through to `url` when `base_url` is falsy, i.e. `None` on the top-level call.
(The other falsy string, `""`, can only arise as an effective base from a
successful fetch of the URL `""`, which `requests.get` rejects with a
`MissingSchema` transport error before any link is followed; so `None` is the
only falsy base the recursion can meet and `Option.getD` is its faithful
rendering.) -/
def effBase (base : Option String) (url : String) : String :=
  base.getD url

/-- The link loop of lines 29–37: for each anchor, skip it when it has no
`href` or an empty one (`if href:`), resolve it against the effective base,
and when the result is in scope hand it to `next` (the recursive
`self.crawl`), threading the state left to right. -/
def crawlLinks (site : Site) (next : String → CrawlerState → CrawlerState)
    (eb : String) : List (Option String) → CrawlerState → CrawlerState
  | [], st => st
  | none :: rest, st => crawlLinks site next eb rest st
  | some href :: rest, st =>
    if href = "" then crawlLinks site next eb rest st
    else
      let r := site.resolve eb href
      if inScope r eb then crawlLinks site next eb rest (next r st)
      else crawlLinks site next eb rest st

/-- The body of the `try` block (lines 23–37), given the already-marked state:
a fetch/parse failure propagates as an exception (`Except.error`), a success
indexes the text and runs the link loop.  `next` is the recursive call, which
receives `base_url=base_url or url`. -/
def crawlTry (site : Site)
    (next : Option String → String → CrawlerState → CrawlerState)
    (base : Option String) (url : String) (st : CrawlerState) :
    Except CrawlError CrawlerState :=
  match site.fetch url with
  | Except.error e => Except.error e
  | Except.ok pg =>
    let st2 := { st with index := indexPut st.index url pg.text }
    let eb := effBase base url
    Except.ok (crawlLinks site (fun r s => next (some eb) r s) eb pg.hrefs st2)

/-- `WebCrawler.crawl` (lines 14–41).  The fuel argument only bounds the
recursion depth; `crawlTop` below supplies enough of it for every traversal to
complete.  An unvisited URL is marked (and the fetch attempt logged) before
the `try` block runs; both `except` handlers swallow the error and return
normally with the marked state. -/
def crawl (site : Site) : Nat → Option String → String → CrawlerState →
    CrawlerState
  | 0, _, _, st => st
  | fuel + 1, base, url, st =>
    if url ∈ st.visited then st
    else
      let st1 := { st with visited := url :: st.visited,
                           fetchLog := st.fetchLog ++ [url] }
      match crawlTry site (fun b r s => crawl site fuel b r s) base url st1 with
      | Except.ok st' => st'
      | Except.error (CrawlError.request _) => st1
      | Except.error (CrawlError.other _) => st1

/-- A top-level `crawler.crawl(seed)` call on a fresh `WebCrawler`:
`site.pages.length + 1` fuel is enough for the recursion to terminate
naturally, since every level of recursion that expands a page permanently
removes one successfully-fetchable URL from the pending set. -/
def crawlTop (site : Site) (seed : String) : CrawlerState :=
  crawl site (site.pages.length + 1) none seed initState

/-- Character-level substring test, the semantics of Python's `in` operator on
strings. -/
def charsSub (needle : List Char) : List Char → Bool
  | [] => needle.isEmpty
  | c :: t => charsPre needle (c :: t) || charsSub needle t

/-- `keyword.lower() in text.lower()` (line 46): case-insensitive substring
containment. -/
def lowerContains (text keyword : String) : Bool :=
  charsSub (keyword.data.map Char.toLower) (text.data.map Char.toLower)

/-- `WebCrawler.search` (lines 43–48): walk the index in insertion order and
collect the URLs whose text contains the lowercased keyword. -/
def search (idx : List (String × String)) (keyword : String) : List String :=
  match idx with
  | [] => []
  | (url, text) :: rest =>
    if lowerContains text keyword then url :: search rest keyword
    else search rest keyword

/-- URLs of the site whose fetch succeeds. -/
def okUrls (site : Site) : List String :=
  (site.pages.filter (fun p => p.2.isOk)).map Prod.fst

/-- Number of successfully-fetchable URLs not yet visited: the termination
measure of the traversal. -/
def pendingOk (site : Site) (st : CrawlerState) : Nat :=
  ((okUrls site).filter (fun u => decide (u ∉ st.visited))).length

/-- One traversal edge: page `a` fetches successfully and carries an anchor
with a non-empty `href` that resolves (against the effective base `eb`) to
`b`, which passes the in-scope check. -/
def linksTo (site : Site) (eb a b : String) : Prop :=
  ∃ pg href, site.fetch a = Except.ok pg ∧ some href ∈ pg.hrefs ∧
    href ≠ "" ∧ site.resolve eb href = b ∧ inScope (site.resolve eb href) eb = true

/-- Transitive reachability from a root through successfully fetched pages via
in-scope links, all resolved against the effective base `eb`. -/
inductive Reachable (site : Site) (eb : String) : String → String → Prop
  | refl (u : String) : Reachable site eb u u
  | step {a b c : String} : Reachable site eb a b → linksTo site eb b c →
      Reachable site eb a c

/-- Split a URL at the first occurrence of the scheme separator. -/
def charsSplitAtScheme : List Char → Option (List Char × List Char)
  | [] => none
  | ':' :: '/' :: '/' :: rest => some ([], rest)
  | c :: rest =>
    match charsSplitAtScheme rest with
    | some (pre, post) => some (c :: pre, post)
    | none => none

/-- Scheme and authority of a URL, e.g. the origin of
`https://example.com/about` is `https://example.com`. -/
def urlOrigin (u : String) : String :=
  match charsSplitAtScheme u.data with
  | some (pre, post) =>
    String.mk (pre ++ (':' :: '/' :: '/' :: post.takeWhile (fun c => c ≠ '/')))
  | none => u

/-- A URL with the last segment of its path removed (keeping the trailing
slash), used to resolve path-relative references. -/
def urlDir (u : String) : String :=
  match charsSplitAtScheme u.data with
  | some (pre, post) =>
    let host := post.takeWhile (fun c => c ≠ '/')
    let path := post.drop host.length
    let keep := (path.reverse.dropWhile (fun c => c ≠ '/')).reverse
    if keep = [] then String.mk (pre ++ (':' :: '/' :: '/' :: host ++ ['/']))
    else String.mk (pre ++ (':' :: '/' :: '/' :: host ++ keep))
  | none => u

/-- Modelled from the spec: the URL Normalizer/Resolver leaf (§4.1 `resolve`),
realized in the source by the external `urljoin` collaborator, whose code is
not part of this repository.  Standard URI resolution for the reference forms
the specification describes: an absolute URL (one containing a scheme
separator) is returned unchanged; a fragment-only reference replaces the
base's fragment; a root-relative path is joined to the base's origin; any
other reference replaces the last segment of the base's path. -/
def urljoinModel (base href : String) : String :=
  if (charsSplitAtScheme href.data).isSome then href
  else if charsPre ['#'] href.data then
    String.mk (base.data.takeWhile (fun c => c ≠ '#')) ++ href
  else if charsPre ['/'] href.data then urlOrigin base ++ href
  else urlDir base ++ href

/-- Scenario site of §8: seed page `https://example.com` with links `/about`,
`https://external.com` and `/about#frag`. -/
def scenarioSite : Site :=
  ⟨[("https://example.com", Except.ok ⟨"Example home",
      [some "/about", some "https://external.com", some "/about#frag"]⟩),
    ("https://example.com/about", Except.ok ⟨"About page", []⟩),
    ("https://example.com/about#frag", Except.ok ⟨"About page", []⟩)],
   urljoinModel⟩

/-- Site whose seed page carries a single fragment-only link `#section`. -/
def fragSite : Site :=
  ⟨[("https://example.com", Except.ok ⟨"home", [some "#section"]⟩),
    ("https://example.com#section", Except.ok ⟨"home", []⟩)],
   urljoinModel⟩

/-- Three-page chain `A -> B -> C` of the §8 scenario, with URLs that share
the seed's prefix (as resolving relative links against the base produces in
the real crawler). -/
def chainSite : Site :=
  ⟨[("https://s", Except.ok ⟨"text a", [some "https://s/b"]⟩),
    ("https://s/b", Except.ok ⟨"text b", [some "https://s/b/c"]⟩),
    ("https://s/b/c", Except.ok ⟨"text c", []⟩)],
   fun _ href => href⟩

/-- Site whose seed page links to `https://example.com.evil.com`, which shares
the literal prefix `https://example.com` without being the same host. -/
def evilSite : Site :=
  ⟨[("https://example.com", Except.ok ⟨"home",
      [some "https://example.com.evil.com"]⟩),
    ("https://example.com.evil.com", Except.ok ⟨"gotcha", []⟩)],
   urljoinModel⟩

/-! ### Basic lemmas about the string primitives -/

theorem charsPre_iff (p l : List Char) : charsPre p l = true ↔ p <+: l := by
  induction p generalizing l with
  | nil => simp [charsPre]
  | cons a as ih =>
    cases l with
    | nil => simp [charsPre]
    | cons b bs =>
      simp only [charsPre, Bool.and_eq_true, beq_iff_eq, List.cons_prefix_cons]
      exact and_congr Iff.rfl (ih bs)

theorem charsPre_refl (l : List Char) : charsPre l l = true :=
  (charsPre_iff l l).mpr ⟨[], List.append_nil l⟩

theorem charsSub_iff (n h : List Char) : charsSub n h = true ↔ n <:+: h := by
  induction h with
  | nil =>
    simp only [charsSub, List.isEmpty_iff, List.infix_nil]
  | cons c t ih =>
    simp only [charsSub, Bool.or_eq_true, charsPre_iff, ih,
      List.infix_cons_iff]

theorem charsSub_nil (h : List Char) : charsSub [] h = true := by
  cases h with
  | nil => rfl
  | cons c t => simp [charsSub, charsPre]

theorem inScope_refl (u : String) : inScope u u = true :=
  charsPre_refl u.data

/-! ### Lemmas about the page table and the pending measure -/

theorem lookup_mem {α β : Type} [BEq α] [LawfulBEq α] {l : List (α × β)}
    {a : α} {b : β} (h : l.lookup a = some b) : (a, b) ∈ l := by
  induction l with
  | nil => simp [List.lookup] at h
  | cons p rest ih =>
    obtain ⟨p1, p2⟩ := p
    rw [List.lookup] at h
    by_cases hab : (a == p1) = true
    · have ha : a = p1 := eq_of_beq hab
      simp only [hab, if_pos] at h
      cases h
      subst ha
      exact List.mem_cons_self _ _
    · simp only [hab, Bool.false_eq_true, if_neg, if_false] at h
      exact List.mem_cons_of_mem _ (ih h)

theorem fetch_ok_mem_okUrls {site : Site} {url : String} {pg : Page}
    (h : site.fetch url = Except.ok pg) : url ∈ okUrls site := by
  unfold Site.fetch at h
  cases hl : site.pages.lookup url with
  | none => rw [hl] at h; cases h
  | some r =>
    rw [hl] at h
    cases h
    refine List.mem_map.mpr ⟨(url, Except.ok pg), ?_, rfl⟩
    exact List.mem_filter.mpr ⟨lookup_mem hl, rfl⟩

theorem filter_not_mem_length_le (l : List String) (v w : List String)
    (h : ∀ x, x ∈ v → x ∈ w) :
    (l.filter (fun u => decide (u ∉ w))).length ≤
      (l.filter (fun u => decide (u ∉ v))).length :=
  List.Sublist.length_le <| List.monotone_filter_right l <| by
    intro a ha
    simp only [decide_eq_true_eq] at ha ⊢
    exact fun hav => ha (h a hav)

theorem filter_not_mem_length_lt (l : List String) (v : List String)
    (u : String) (hu : u ∈ l) (hv : u ∉ v) :
    (l.filter (fun x => decide (x ∉ u :: v))).length <
      (l.filter (fun x => decide (x ∉ v))).length := by
  induction l with
  | nil => cases hu
  | cons x xs ih =>
    by_cases hxu : x = u
    · subst hxu
      have h1 : (decide (x ∉ x :: v)) = false := by simp
      have h2 : (decide (x ∉ v)) = true := by simpa using hv
      simp only [List.filter_cons, h1, h2, if_pos, if_neg, Bool.false_eq_true,
        if_false, if_true, List.length_cons]
      have := filter_not_mem_length_le xs v (x :: v)
        (fun y hy => List.mem_cons_of_mem x hy)
      omega
    · have hu' : u ∈ xs := by
        cases List.mem_cons.mp hu with
        | inl h => exact absurd h.symm hxu
        | inr h => exact h
      have heq : (decide (x ∉ u :: v)) = (decide (x ∉ v)) := by
        by_cases hxv : x ∈ v
        · simp [hxv]
        · simp [hxv, List.mem_cons, hxu]
      cases hd : decide (x ∉ v) with
      | true =>
        simp only [List.filter_cons, heq, hd, if_true, List.length_cons]
        exact Nat.succ_lt_succ (ih hu')
      | false =>
        simp only [List.filter_cons, heq, hd, Bool.false_eq_true, if_false]
        exact ih hu'

theorem pendingOk_le (site : Site) (st : CrawlerState) :
    pendingOk site st ≤ site.pages.length := by
  unfold pendingOk okUrls
  calc ((((site.pages.filter (fun p => p.2.isOk)).map Prod.fst)).filter
          (fun u => decide (u ∉ st.visited))).length
      ≤ (((site.pages.filter (fun p => p.2.isOk)).map Prod.fst)).length :=
        List.length_filter_le _ _
    _ = (site.pages.filter (fun p => p.2.isOk)).length := List.length_map _ _
    _ ≤ site.pages.length := List.length_filter_le _ _

theorem pendingOk_mono (site : Site) {s t : CrawlerState}
    (h : ∀ u, u ∈ s.visited → u ∈ t.visited) :
    pendingOk site t ≤ pendingOk site s :=
  filter_not_mem_length_le (okUrls site) s.visited t.visited h

/-! ### Lemmas about `indexPut` -/

theorem indexPut_mem_of_ne {idx : List (String × String)} {u x url t : String}
    (h : (u, x) ∈ idx) (hne : u ≠ url) : (u, x) ∈ indexPut idx url t := by
  unfold indexPut
  by_cases hany : idx.any (fun p => p.1 == url)
  · rw [if_pos hany]
    refine List.mem_map.mpr ⟨(u, x), h, ?_⟩
    simp [hne]
  · rw [if_neg hany]
    exact List.mem_append_left _ h

theorem indexPut_keys_sub {idx : List (String × String)} {u url t : String}
    (h : u ∈ idx.map Prod.fst) : u ∈ (indexPut idx url t).map Prod.fst := by
  unfold indexPut
  by_cases hany : idx.any (fun p => p.1 == url)
  · rw [if_pos hany]
    rcases List.mem_map.mp h with ⟨p, hp, hfst⟩
    by_cases hpu : (p.1 == url) = true
    · exact List.mem_map.mpr
        ⟨(p.1, t), List.mem_map.mpr ⟨p, hp, by rw [if_pos hpu]⟩, hfst⟩
    · exact List.mem_map.mpr
        ⟨p, List.mem_map.mpr ⟨p, hp, by rw [if_neg hpu]⟩, hfst⟩
  · rw [if_neg hany]
    rw [List.map_append]
    exact List.mem_append_left _ h

theorem indexPut_self_of_not_mem {idx : List (String × String)} {url t : String}
    (h : url ∉ idx.map Prod.fst) : (url, t) ∈ indexPut idx url t := by
  unfold indexPut
  have hany : idx.any (fun p => p.1 == url) = false := by
    rw [List.any_eq_false]
    intro p hp
    simp only [beq_iff_eq]
    intro hpu
    exact h (List.mem_map.mpr ⟨p, hp, hpu⟩)
  rw [hany]
  simp

theorem indexPut_mem_keys {idx : List (String × String)} {u url t : String} :
    u ∈ (indexPut idx url t).map Prod.fst ↔ u = url ∨ u ∈ idx.map Prod.fst := by
  unfold indexPut
  by_cases hany : idx.any (fun p => p.1 == url)
  · rw [if_pos hany]
    rcases List.any_eq_true.mp hany with ⟨q, hq, hqu⟩
    constructor
    · intro h
      rcases List.mem_map.mp h with ⟨p, hp, hfst⟩
      rcases List.mem_map.mp hp with ⟨p0, hp0, hmap⟩
      by_cases hp0u : p0.1 == url
      · rw [if_pos hp0u] at hmap
        right
        refine List.mem_map.mpr ⟨p0, hp0, ?_⟩
        rw [← hmap] at hfst
        exact hfst
      · rw [if_neg hp0u] at hmap
        right
        exact List.mem_map.mpr ⟨p0, hp0, by rw [hmap]; exact hfst⟩
    · intro h
      cases h with
      | inl h =>
        subst h
        exact List.mem_map.mpr
          ⟨(q.1, t), List.mem_map.mpr ⟨q, hq, by rw [if_pos hqu]⟩, eq_of_beq hqu⟩
      | inr h =>
        rcases List.mem_map.mp h with ⟨p, hp, hfst⟩
        by_cases hpu : (p.1 == url) = true
        · exact List.mem_map.mpr
            ⟨(p.1, t), List.mem_map.mpr ⟨p, hp, by rw [if_pos hpu]⟩, hfst⟩
        · exact List.mem_map.mpr
            ⟨p, List.mem_map.mpr ⟨p, hp, by rw [if_neg hpu]⟩, hfst⟩
  · rw [if_neg hany]
    rw [List.map_append]
    simp only [List.mem_append, List.map_cons, List.map_nil, List.mem_singleton]
    constructor
    · intro h
      cases h with
      | inl h => exact Or.inr h
      | inr h => exact Or.inl (by simpa using h)
    · intro h
      cases h with
      | inl h => exact Or.inr (by simpa using h)
      | inr h => exact Or.inl h

/-! ### Unfolding equations for one step of `crawl` -/

theorem crawl_succ_visited {site : Site} {f : Nat} {base : Option String}
    {url : String} {st : CrawlerState} (h : url ∈ st.visited) :
    crawl site (f + 1) base url st = st := by
  simp [crawl, h]

theorem crawl_succ_error {site : Site} {f : Nat} {base : Option String}
    {url : String} {st : CrawlerState} {e : CrawlError}
    (h : site.fetch url = Except.error e) (hv : url ∉ st.visited) :
    crawl site (f + 1) base url st =
      { st with visited := url :: st.visited,
                fetchLog := st.fetchLog ++ [url] } := by
  cases e with
  | request m => simp [crawl, crawlTry, h, hv]
  | other m => simp [crawl, crawlTry, h, hv]

theorem crawl_succ_ok {site : Site} {f : Nat} {base : Option String}
    {url : String} {st : CrawlerState} {pg : Page}
    (h : site.fetch url = Except.ok pg) (hv : url ∉ st.visited) :
    crawl site (f + 1) base url st =
      crawlLinks site (fun r s => crawl site f (some (effBase base url)) r s)
        (effBase base url) pg.hrefs
        { st with index := indexPut st.index url pg.text,
                  visited := url :: st.visited,
                  fetchLog := st.fetchLog ++ [url] } := by
  simp [crawl, crawlTry, h, hv]

/-! ### A growth order on crawler states

`StateLe s t` says `t` extends `s`: everything visited or fetch-logged in `s`
still is in `t`, index keys survive, and an index entry whose key is already
visited is never overwritten later (the visited check prevents a second
`self.index[url] = ...` for it). -/

structure StateLe (s t : CrawlerState) : Prop where
  visited_sub : ∀ u, u ∈ s.visited → u ∈ t.visited
  log_sub : ∀ u, u ∈ s.fetchLog → u ∈ t.fetchLog
  entry_stable : ∀ u x, (u, x) ∈ s.index → u ∈ s.visited → (u, x) ∈ t.index
  keys_sub : ∀ u, u ∈ s.index.map Prod.fst → u ∈ t.index.map Prod.fst

theorem StateLe.refl (s : CrawlerState) : StateLe s s :=
  ⟨fun _ h => h, fun _ h => h, fun _ _ h _ => h, fun _ h => h⟩

theorem StateLe.trans {s t u : CrawlerState} (h1 : StateLe s t)
    (h2 : StateLe t u) : StateLe s u := by
  refine ⟨fun v hv => h2.visited_sub v (h1.visited_sub v hv),
    fun v hv => h2.log_sub v (h1.log_sub v hv),
    fun v x hx hv => h2.entry_stable v x (h1.entry_stable v x hx hv)
      (h1.visited_sub v hv),
    fun v hv => h2.keys_sub v (h1.keys_sub v hv)⟩

theorem stateLe_mark {st : CrawlerState} {url : String} :
    StateLe st { st with visited := url :: st.visited,
                         fetchLog := st.fetchLog ++ [url] } := by
  refine ⟨fun v hv => List.mem_cons_of_mem _ hv,
    fun v hv => List.mem_append_left _ hv,
    fun v x hx _ => hx,
    fun v hv => hv⟩

theorem stateLe_mark_put {st : CrawlerState} {url t : String}
    (hv : url ∉ st.visited) :
    StateLe st { st with index := indexPut st.index url t,
                         visited := url :: st.visited,
                         fetchLog := st.fetchLog ++ [url] } := by
  refine ⟨fun v hvv => List.mem_cons_of_mem _ hvv,
    fun v hvv => List.mem_append_left _ hvv,
    fun v x hx hvv => indexPut_mem_of_ne hx (fun hvu => hv (hvu ▸ hvv)),
    fun v hvv => indexPut_keys_sub hvv⟩

theorem crawlLinks_stateLe (site : Site)
    (f : String → CrawlerState → CrawlerState) (eb : String)
    (hf : ∀ r s, StateLe s (f r s)) :
    ∀ (links : List (Option String)) (st : CrawlerState),
      StateLe st (crawlLinks site f eb links st) := by
  intro links
  induction links with
  | nil => intro st; exact StateLe.refl st
  | cons o rest ih =>
    intro st
    cases o with
    | none => exact ih st
    | some href =>
      by_cases he : href = ""
      · simp only [crawlLinks, if_pos he]
        exact ih st
      · simp only [crawlLinks, if_neg he]
        by_cases hs : inScope (site.resolve eb href) eb
        · rw [if_pos hs]
          exact StateLe.trans (hf _ st) (ih _)
        · rw [if_neg hs]
          exact ih st

theorem crawl_stateLe (site : Site) :
    ∀ (fuel : Nat) (base : Option String) (url : String) (st : CrawlerState),
      StateLe st (crawl site fuel base url st) := by
  intro fuel
  induction fuel with
  | zero => intro base url st; exact StateLe.refl st
  | succ f ih =>
    intro base url st
    by_cases hv : url ∈ st.visited
    · rw [crawl_succ_visited hv]
      exact StateLe.refl st
    · cases hfetch : site.fetch url with
      | error e =>
        rw [crawl_succ_error hfetch hv]
        exact stateLe_mark
      | ok pg =>
        rw [crawl_succ_ok hfetch hv]
        exact StateLe.trans (stateLe_mark_put hv)
          (crawlLinks_stateLe site _ _ (fun r s => ih _ r s) _ _)

theorem crawl_visits {site : Site} {fuel : Nat} {base : Option String}
    {url : String} {st : CrawlerState} (hfuel : 1 ≤ fuel) :
    url ∈ (crawl site fuel base url st).visited := by
  cases fuel with
  | zero => omega
  | succ f =>
    by_cases hv : url ∈ st.visited
    · rw [crawl_succ_visited hv]; exact hv
    · cases hfetch : site.fetch url with
      | error e =>
        rw [crawl_succ_error hfetch hv]
        exact List.mem_cons_self _ _
      | ok pg =>
        rw [crawl_succ_ok hfetch hv]
        exact (crawlLinks_stateLe site _ _
          (fun r s => crawl_stateLe site f _ r s) _ _).visited_sub url
          (List.mem_cons_self _ _)

/-! ### Soundness: every visited URL is reachable -/

theorem Reachable.head {site : Site} {eb a b c : String}
    (h1 : linksTo site eb a b) (h2 : Reachable site eb b c) :
    Reachable site eb a c := by
  induction h2 with
  | refl => exact Reachable.step (Reachable.refl a) h1
  | step hr hl ih => exact Reachable.step ih hl

theorem crawlLinks_visited_sound (site : Site)
    (f : String → CrawlerState → CrawlerState) (eb : String)
    (hf : ∀ r s u, u ∈ (f r s).visited → u ∈ s.visited ∨ Reachable site eb r u) :
    ∀ (links : List (Option String)) (st : CrawlerState) (u : String),
      u ∈ (crawlLinks site f eb links st).visited →
      u ∈ st.visited ∨ ∃ h, some h ∈ links ∧ h ≠ "" ∧
        inScope (site.resolve eb h) eb = true ∧
        Reachable site eb (site.resolve eb h) u := by
  intro links
  induction links with
  | nil => intro st u hu; exact Or.inl hu
  | cons o rest ih =>
    intro st u hu
    have lift : (u ∈ st.visited ∨ ∃ h, some h ∈ rest ∧ h ≠ "" ∧
        inScope (site.resolve eb h) eb = true ∧
        Reachable site eb (site.resolve eb h) u) →
        u ∈ st.visited ∨ ∃ h, some h ∈ o :: rest ∧ h ≠ "" ∧
        inScope (site.resolve eb h) eb = true ∧
        Reachable site eb (site.resolve eb h) u := by
      rintro (h | ⟨hh, hmem, hne, hsc, hr⟩)
      · exact Or.inl h
      · exact Or.inr ⟨hh, List.mem_cons_of_mem _ hmem, hne, hsc, hr⟩
    cases o with
    | none => exact lift (ih st u hu)
    | some href =>
      by_cases he : href = ""
      · simp only [crawlLinks, if_pos he] at hu
        exact lift (ih st u hu)
      · simp only [crawlLinks, if_neg he] at hu
        by_cases hs : inScope (site.resolve eb href) eb
        · rw [if_pos hs] at hu
          rcases ih _ u hu with h | ⟨hh, hmem, hne, hsc, hr⟩
          · rcases hf _ st u h with h' | h'
            · exact Or.inl h'
            · exact Or.inr ⟨href, List.mem_cons_self _ _, he, hs, h'⟩
          · exact Or.inr ⟨hh, List.mem_cons_of_mem _ hmem, hne, hsc, hr⟩
        · rw [if_neg hs] at hu
          exact lift (ih st u hu)

theorem crawl_sound (site : Site) :
    ∀ (fuel : Nat) (base : Option String) (url : String) (st : CrawlerState)
      (u : String),
      u ∈ (crawl site fuel base url st).visited →
      u ∈ st.visited ∨ Reachable site (effBase base url) url u := by
  intro fuel
  induction fuel with
  | zero => intro base url st u hu; exact Or.inl hu
  | succ f ih =>
    intro base url st u hu
    by_cases hv : url ∈ st.visited
    · rw [crawl_succ_visited hv] at hu
      exact Or.inl hu
    · cases hfetch : site.fetch url with
      | error e =>
        rw [crawl_succ_error hfetch hv] at hu
        rcases List.mem_cons.mp hu with rfl | h
        · exact Or.inr (Reachable.refl u)
        · exact Or.inl h
      | ok pg =>
        rw [crawl_succ_ok hfetch hv] at hu
        have hs := crawlLinks_visited_sound site _ (effBase base url)
          (fun r s v hval => ih (some (effBase base url)) r s v hval)
          pg.hrefs _ u hu
        rcases hs with h | ⟨hh, hmem, hne, hsc, hreach⟩
        · rcases List.mem_cons.mp h with rfl | h'
          · exact Or.inr (Reachable.refl u)
          · exact Or.inl h'
        · exact Or.inr
            (Reachable.head ⟨pg, hh, hfetch, hmem, hne, rfl, hsc⟩ hreach)

/-! ### Scope: everything a crawl adds, other than its own argument, shares
the effective base prefix -/

theorem crawlLinks_scope (site : Site)
    (f : String → CrawlerState → CrawlerState) (eb : String)
    (hf : ∀ r s, inScope r eb = true → ∀ u,
      (u ∈ (f r s).visited → u ∈ s.visited ∨ u = r ∨ inScope u eb = true) ∧
      (u ∈ (f r s).index.map Prod.fst →
        u ∈ s.index.map Prod.fst ∨ u = r ∨ inScope u eb = true)) :
    ∀ (links : List (Option String)) (st : CrawlerState) (u : String),
      (u ∈ (crawlLinks site f eb links st).visited →
        u ∈ st.visited ∨ inScope u eb = true) ∧
      (u ∈ (crawlLinks site f eb links st).index.map Prod.fst →
        u ∈ st.index.map Prod.fst ∨ inScope u eb = true) := by
  intro links
  induction links with
  | nil => intro st u; exact ⟨fun h => Or.inl h, fun h => Or.inl h⟩
  | cons o rest ih =>
    intro st u
    cases o with
    | none => exact ih st u
    | some href =>
      by_cases he : href = ""
      · simp only [crawlLinks, if_pos he]
        exact ih st u
      · simp only [crawlLinks, if_neg he]
        by_cases hs : inScope (site.resolve eb href) eb
        · rw [if_pos hs]
          constructor
          · intro hu
            rcases (ih _ u).1 hu with h | h
            · rcases (hf _ st hs u).1 h with h' | h' | h'
              · exact Or.inl h'
              · exact Or.inr (h' ▸ hs)
              · exact Or.inr h'
            · exact Or.inr h
          · intro hu
            rcases (ih _ u).2 hu with h | h
            · rcases (hf _ st hs u).2 h with h' | h' | h'
              · exact Or.inl h'
              · exact Or.inr (h' ▸ hs)
              · exact Or.inr h'
            · exact Or.inr h
        · rw [if_neg hs]
          exact ih st u

theorem crawl_scope (site : Site) :
    ∀ (fuel : Nat) (base : Option String) (url : String) (st : CrawlerState)
      (u : String),
      (u ∈ (crawl site fuel base url st).visited →
        u ∈ st.visited ∨ u = url ∨ inScope u (effBase base url) = true) ∧
      (u ∈ (crawl site fuel base url st).index.map Prod.fst →
        u ∈ st.index.map Prod.fst ∨ u = url ∨
          inScope u (effBase base url) = true) := by
  intro fuel
  induction fuel with
  | zero => intro base url st u; exact ⟨fun h => Or.inl h, fun h => Or.inl h⟩
  | succ f ih =>
    intro base url st u
    by_cases hv : url ∈ st.visited
    · rw [crawl_succ_visited hv]
      exact ⟨fun h => Or.inl h, fun h => Or.inl h⟩
    · cases hfetch : site.fetch url with
      | error e =>
        rw [crawl_succ_error hfetch hv]
        constructor
        · intro hu
          rcases List.mem_cons.mp hu with rfl | h
          · exact Or.inr (Or.inl rfl)
          · exact Or.inl h
        · intro hu
          exact Or.inl hu
      | ok pg =>
        rw [crawl_succ_ok hfetch hv]
        have hcl := crawlLinks_scope site _ (effBase base url)
          (fun r s hscope v => ih (some (effBase base url)) r s v)
          pg.hrefs
          { st with index := indexPut st.index url pg.text,
                    visited := url :: st.visited,
                    fetchLog := st.fetchLog ++ [url] } u
        constructor
        · intro hu
          rcases hcl.1 hu with h | h
          · rcases List.mem_cons.mp h with rfl | h'
            · exact Or.inr (Or.inl rfl)
            · exact Or.inl h'
          · exact Or.inr (Or.inr h)
        · intro hu
          rcases hcl.2 hu with h | h
          · rcases indexPut_mem_keys.mp h with rfl | h'
            · exact Or.inr (Or.inl rfl)
            · exact Or.inl h'
          · exact Or.inr (Or.inr h)

/-! ### The index/visited/log invariant -/

/-- Invariant tying the three state components together: a URL is an index key
exactly when it has been visited and its fetch succeeds, and the fetch log
records exactly the visited URLs (every marked URL is attempted once). -/
def GoodState (site : Site) (st : CrawlerState) : Prop :=
  (∀ u, u ∈ st.index.map Prod.fst ↔
    u ∈ st.visited ∧ (site.fetch u).isOk = true) ∧
  (∀ u, u ∈ st.fetchLog ↔ u ∈ st.visited)

theorem crawlLinks_good (site : Site)
    (f : String → CrawlerState → CrawlerState) (eb : String)
    (hf : ∀ r s, GoodState site s → GoodState site (f r s)) :
    ∀ (links : List (Option String)) (st : CrawlerState),
      GoodState site st → GoodState site (crawlLinks site f eb links st) := by
  intro links
  induction links with
  | nil => intro st h; exact h
  | cons o rest ih =>
    intro st h
    cases o with
    | none => exact ih st h
    | some href =>
      by_cases he : href = ""
      · simp only [crawlLinks, if_pos he]
        exact ih st h
      · simp only [crawlLinks, if_neg he]
        by_cases hs : inScope (site.resolve eb href) eb
        · rw [if_pos hs]
          exact ih _ (hf _ st h)
        · rw [if_neg hs]
          exact ih st h

theorem crawl_good (site : Site) :
    ∀ (fuel : Nat) (base : Option String) (url : String) (st : CrawlerState),
      GoodState site st → GoodState site (crawl site fuel base url st) := by
  intro fuel
  induction fuel with
  | zero => intro base url st h; exact h
  | succ f ih =>
    intro base url st h
    by_cases hv : url ∈ st.visited
    · rw [crawl_succ_visited hv]
      exact h
    · cases hfetch : site.fetch url with
      | error e =>
        rw [crawl_succ_error hfetch hv]
        constructor
        · intro u
          constructor
          · intro hk
            have := (h.1 u).mp hk
            exact ⟨List.mem_cons_of_mem _ this.1, this.2⟩
          · rintro ⟨hin, hok⟩
            rcases List.mem_cons.mp hin with rfl | hin'
            · rw [hfetch] at hok
              cases hok
            · exact (h.1 u).mpr ⟨hin', hok⟩
        · intro u
          simp only [List.mem_append, List.mem_singleton, List.mem_cons,
            List.not_mem_nil, or_false]
          rw [h.2 u]
          exact Or.comm
      | ok pg =>
        rw [crawl_succ_ok hfetch hv]
        refine crawlLinks_good site _ _ (fun r s hgs => ih _ r s hgs) _ _ ?_
        constructor
        · intro u
          rw [indexPut_mem_keys]
          constructor
          · rintro (rfl | hk)
            · exact ⟨List.mem_cons_self _ _, by rw [hfetch]; rfl⟩
            · have := (h.1 u).mp hk
              exact ⟨List.mem_cons_of_mem _ this.1, this.2⟩
          · rintro ⟨hin, hok⟩
            rcases List.mem_cons.mp hin with rfl | hin'
            · exact Or.inl rfl
            · exact Or.inr ((h.1 u).mpr ⟨hin', hok⟩)
        · intro u
          simp only [List.mem_append, List.mem_singleton, List.mem_cons,
            List.not_mem_nil, or_false]
          rw [h.2 u]
          exact Or.comm

/-- The fresh crawler state satisfies the invariant. -/
theorem initState_good (site : Site) : GoodState site initState := by
  constructor
  · intro u
    simp [initState]
  · intro u
    simp [initState]

/-! ### Preservation of "index keys are visited" alone -/

theorem crawlLinks_keysSub (site : Site)
    (f : String → CrawlerState → CrawlerState) (eb : String)
    (hf : ∀ r s, (∀ u, u ∈ s.index.map Prod.fst → u ∈ s.visited) →
      ∀ u, u ∈ (f r s).index.map Prod.fst → u ∈ (f r s).visited) :
    ∀ (links : List (Option String)) (st : CrawlerState),
      (∀ u, u ∈ st.index.map Prod.fst → u ∈ st.visited) →
      ∀ u, u ∈ (crawlLinks site f eb links st).index.map Prod.fst →
        u ∈ (crawlLinks site f eb links st).visited := by
  intro links
  induction links with
  | nil => intro st h; exact h
  | cons o rest ih =>
    intro st h
    cases o with
    | none => exact ih st h
    | some href =>
      by_cases he : href = ""
      · simp only [crawlLinks, if_pos he]
        exact ih st h
      · simp only [crawlLinks, if_neg he]
        by_cases hs : inScope (site.resolve eb href) eb
        · rw [if_pos hs]
          exact ih _ (hf _ st h)
        · rw [if_neg hs]
          exact ih st h

theorem crawl_keysSub (site : Site) :
    ∀ (fuel : Nat) (base : Option String) (url : String) (st : CrawlerState),
      (∀ u, u ∈ st.index.map Prod.fst → u ∈ st.visited) →
      ∀ u, u ∈ (crawl site fuel base url st).index.map Prod.fst →
        u ∈ (crawl site fuel base url st).visited := by
  intro fuel
  induction fuel with
  | zero => intro base url st h; exact h
  | succ f ih =>
    intro base url st h
    by_cases hv : url ∈ st.visited
    · rw [crawl_succ_visited hv]
      exact h
    · cases hfetch : site.fetch url with
      | error e =>
        rw [crawl_succ_error hfetch hv]
        intro u hk
        exact List.mem_cons_of_mem _ (h u hk)
      | ok pg =>
        rw [crawl_succ_ok hfetch hv]
        refine crawlLinks_keysSub site _ _ (fun r s hgs => ih _ r s hgs) _ _ ?_
        intro u hk
        rcases indexPut_mem_keys.mp hk with rfl | hk'
        · exact List.mem_cons_self _ _
        · exact List.mem_cons_of_mem _ (h u hk')

/-! ### Completeness: with enough fuel every in-scope link of every newly
visited page is itself visited -/

/-- All in-scope links of `u`'s page (when `u` fetches successfully) are
visited in the state `R`. -/
def LinkClosedAt (site : Site) (eb : String) (R : CrawlerState) (u : String) :
    Prop :=
  ∀ pg h, site.fetch u = Except.ok pg → some h ∈ pg.hrefs → h ≠ "" →
    inScope (site.resolve eb h) eb = true → site.resolve eb h ∈ R.visited

theorem linkClosedAt_mono {site : Site} {eb : String} {R R' : CrawlerState}
    {u : String} (hle : StateLe R R') (h : LinkClosedAt site eb R u) :
    LinkClosedAt site eb R' u :=
  fun pg hr hok hmem hne hsc =>
    hle.visited_sub _ (h pg hr hok hmem hne hsc)

theorem crawlLinks_closure (site : Site) (fuelF : Nat)
    (f : String → CrawlerState → CrawlerState) (eb : String)
    (hle : ∀ r s, StateLe s (f r s))
    (hvisit : ∀ r s, 1 ≤ fuelF → r ∈ (f r s).visited)
    (hclosed : ∀ r s, pendingOk site s + 1 ≤ fuelF → ∀ u, u ∈ (f r s).visited →
      u ∉ s.visited → LinkClosedAt site eb (f r s) u) :
    ∀ (links : List (Option String)) (st : CrawlerState),
      pendingOk site st + 1 ≤ fuelF →
      (∀ u, u ∈ (crawlLinks site f eb links st).visited → u ∉ st.visited →
        LinkClosedAt site eb (crawlLinks site f eb links st) u) ∧
      (∀ h, some h ∈ links → h ≠ "" → inScope (site.resolve eb h) eb = true →
        site.resolve eb h ∈ (crawlLinks site f eb links st).visited) := by
  intro links
  induction links with
  | nil =>
    intro st hbound
    exact ⟨fun u hu hnu => absurd hu hnu,
      fun h hmem => absurd hmem (List.not_mem_nil _)⟩
  | cons o rest ih =>
    intro st hbound
    cases o with
    | none =>
      rcases ih st hbound with ⟨cl, cov⟩
      refine ⟨cl, fun h hmem hne hsc => ?_⟩
      rcases List.mem_cons.mp hmem with heq | hmem'
      · cases heq
      · exact cov h hmem' hne hsc
    | some href =>
      by_cases he : href = ""
      · simp only [crawlLinks, if_pos he]
        rcases ih st hbound with ⟨cl, cov⟩
        refine ⟨cl, fun h hmem hne hsc => ?_⟩
        rcases List.mem_cons.mp hmem with heq | hmem'
        · rw [Option.some_inj.mp heq, he] at hne
          exact absurd rfl hne
        · exact cov h hmem' hne hsc
      · simp only [crawlLinks, if_neg he]
        by_cases hs : inScope (site.resolve eb href) eb
        · rw [if_pos hs]
          have hbound' : pendingOk site (f (site.resolve eb href) st) + 1 ≤
              fuelF := by
            have := pendingOk_mono site
              (fun v hv => (hle (site.resolve eb href) st).visited_sub v hv)
            omega
          rcases ih (f (site.resolve eb href) st) hbound' with ⟨cl, cov⟩
          constructor
          · intro u hu hnu
            by_cases hus : u ∈ (f (site.resolve eb href) st).visited
            · exact linkClosedAt_mono
                (crawlLinks_stateLe site f eb hle rest _)
                (hclosed _ st hbound u hus hnu)
            · exact cl u hu hus
          · intro h hmem hne hsc
            rcases List.mem_cons.mp hmem with heq | hmem'
            · rw [Option.some_inj.mp heq]
              exact (crawlLinks_stateLe site f eb hle rest _).visited_sub _
                (hvisit _ st (by omega))
            · exact cov h hmem' hne hsc
        · rw [if_neg hs]
          rcases ih st hbound with ⟨cl, cov⟩
          refine ⟨cl, fun h hmem hne hsc => ?_⟩
          rcases List.mem_cons.mp hmem with heq | hmem'
          · rw [Option.some_inj.mp heq] at hsc
            exact absurd hsc (by simpa using hs)
          · exact cov h hmem' hne hsc

theorem crawl_closure (site : Site) :
    ∀ (fuel : Nat) (base : Option String) (url : String) (st : CrawlerState),
      pendingOk site st + 1 ≤ fuel →
      ∀ u, u ∈ (crawl site fuel base url st).visited → u ∉ st.visited →
        LinkClosedAt site (effBase base url) (crawl site fuel base url st) u := by
  intro fuel
  induction fuel with
  | zero => intro base url st hbound; omega
  | succ f ih =>
    intro base url st hbound u hu hnu
    by_cases hv : url ∈ st.visited
    · rw [crawl_succ_visited hv] at hu
      exact absurd hu hnu
    · cases hfetch : site.fetch url with
      | error e =>
        rw [crawl_succ_error hfetch hv] at hu ⊢
        rcases List.mem_cons.mp hu with rfl | h
        · intro pg h hok hmem hne hsc
          rw [hfetch] at hok
          simp at hok
        · exact absurd h hnu
      | ok pg =>
        rw [crawl_succ_ok hfetch hv] at hu ⊢
        have hple : pendingOk site
            { st with index := indexPut st.index url pg.text,
                      visited := url :: st.visited,
                      fetchLog := st.fetchLog ++ [url] } < pendingOk site st := by
          unfold pendingOk
          exact filter_not_mem_length_lt _ _ _ (fetch_ok_mem_okUrls hfetch) hv
        have hbound2 : pendingOk site
            { st with index := indexPut st.index url pg.text,
                      visited := url :: st.visited,
                      fetchLog := st.fetchLog ++ [url] } + 1 ≤ f := by omega
        have hcl := crawlLinks_closure site f _ (effBase base url)
          (fun r s => crawl_stateLe site f _ r s)
          (fun r s h1 => crawl_visits h1)
          (fun r s hb v hval hnval => ih (some (effBase base url)) r s hb v hval hnval)
          pg.hrefs
          { st with index := indexPut st.index url pg.text,
                    visited := url :: st.visited,
                    fetchLog := st.fetchLog ++ [url] } hbound2
        by_cases hueq : u = url
        · subst hueq
          intro pg' h hok hmem hne hsc
          rw [hfetch] at hok
          cases hok
          exact hcl.2 h hmem hne hsc
        · refine hcl.1 u hu (fun hin => ?_)
          rcases List.mem_cons.mp hin with h | h
          · exact hueq h
          · exact hnu h

/-! ### Search lemmas -/

theorem lowerContains_empty (t : String) : lowerContains t "" = true := by
  have h : ("" : String).data.map Char.toLower = [] := rfl
  unfold lowerContains
  rw [h]
  exact charsSub_nil _

theorem lowerContains_iff (t kw : String) :
    lowerContains t kw = true ↔
      kw.data.map Char.toLower <:+: t.data.map Char.toLower :=
  charsSub_iff _ _

theorem search_mem (idx : List (String × String)) (kw u : String) :
    u ∈ search idx kw ↔ ∃ x, (u, x) ∈ idx ∧ lowerContains x kw = true := by
  induction idx with
  | nil => simp [search]
  | cons p rest ih =>
    obtain ⟨purl, ptext⟩ := p
    by_cases hc : lowerContains ptext kw = true
    · simp only [search, hc, if_true]
      constructor
      · intro hu
        rcases List.mem_cons.mp hu with rfl | hu'
        · exact ⟨ptext, List.mem_cons_self _ _, hc⟩
        · rcases ih.mp hu' with ⟨x, hx, hcx⟩
          exact ⟨x, List.mem_cons_of_mem _ hx, hcx⟩
      · rintro ⟨x, hx, hcx⟩
        rcases List.mem_cons.mp hx with heq | hx'
        · exact List.mem_cons.mpr (Or.inl (congrArg Prod.fst heq))
        · exact List.mem_cons.mpr (Or.inr (ih.mpr ⟨x, hx', hcx⟩))
    · have hc' : lowerContains ptext kw = false := by
        cases h : lowerContains ptext kw
        · rfl
        · exact absurd h hc
      simp only [search, hc', Bool.false_eq_true, if_false]
      rw [ih]
      constructor
      · rintro ⟨x, hx, hcx⟩
        exact ⟨x, List.mem_cons_of_mem _ hx, hcx⟩
      · rintro ⟨x, hx, hcx⟩
        rcases List.mem_cons.mp hx with heq | hx'
        · have hx2 : x = ptext := congrArg Prod.snd heq
          rw [hx2] at hcx
          exact absurd hcx hc
        · exact ⟨x, hx', hcx⟩

theorem search_sublist (idx : List (String × String)) (kw : String) :
    List.Sublist (search idx kw) (idx.map Prod.fst) := by
  induction idx with
  | nil => simp [search]
  | cons p rest ih =>
    obtain ⟨purl, ptext⟩ := p
    by_cases hc : lowerContains ptext kw = true
    · simp only [search, hc, if_true, List.map_cons]
      exact List.Sublist.cons₂ _ ih
    · have hc' : lowerContains ptext kw = false := by
        cases h : lowerContains ptext kw
        · rfl
        · exact absurd h hc
      simp only [search, hc', Bool.false_eq_true, if_false, List.map_cons]
      exact List.Sublist.cons _ ih

theorem search_empty_keyword (idx : List (String × String)) :
    search idx "" = idx.map Prod.fst := by
  induction idx with
  | nil => rfl
  | cons p rest ih =>
    obtain ⟨purl, ptext⟩ := p
    simp [search, lowerContains_empty, ih]

/-- Site with an empty page table: every fetch fails with a transport
error. -/
def failSite : Site := ⟨[], fun _ href => href⟩

/-- Reachability propagates membership in the final visited set of a
completed top-level crawl: once a URL is visited, everything reachable from
it is visited too, because enough fuel makes the final state link-closed. -/
theorem reachable_visited (site : Site) (seed : String) :
    ∀ (a u : String), Reachable site seed a u →
      a ∈ (crawlTop site seed).visited → u ∈ (crawlTop site seed).visited := by
  intro a u hr
  induction hr with
  | refl => exact id
  | step ha hl ih =>
    intro hA
    have hb := ih hA
    rcases hl with ⟨pg, h, hok, hmem, hne, hres, hsc⟩
    have hbound : pendingOk site initState + 1 ≤ site.pages.length + 1 := by
      have := pendingOk_le site initState
      omega
    have hclosed := crawl_closure site (site.pages.length + 1) none seed
      initState hbound _ hb (List.not_mem_nil _)
    have hv := hclosed pg h hok hmem hne hsc
    unfold crawlTop
    rw [← hres]
    exact hv

/-! ### The claims -/

/-- C1: after `crawl(seed)` returns, a URL is in the Visited Set iff it is the
seed itself or transitively reachable from the seed through successfully
fetched pages via links that resolve to in-scope URLs; in the three-page
chain scenario all three pages end up visited and indexed. -/
theorem crawl_visited_iff_reachable :
    (∀ (site : Site) (seed u : String),
      u ∈ (crawlTop site seed).visited ↔ Reachable site seed seed u) ∧
    ("https://s" ∈ (crawlTop chainSite "https://s").visited ∧
     "https://s/b" ∈ (crawlTop chainSite "https://s").visited ∧
     "https://s/b/c" ∈ (crawlTop chainSite "https://s").visited ∧
     "https://s" ∈ (crawlTop chainSite "https://s").index.map Prod.fst ∧
     "https://s/b" ∈ (crawlTop chainSite "https://s").index.map Prod.fst ∧
     "https://s/b/c" ∈ (crawlTop chainSite "https://s").index.map Prod.fst) := by
  constructor
  · intro site seed u
    constructor
    · intro hu
      rcases crawl_sound site (site.pages.length + 1) none seed initState u hu
        with h | h
      · exact absurd h (List.not_mem_nil u)
      · exact h
    · intro hr
      exact reachable_visited site seed seed u hr
        (@crawl_visits site (site.pages.length + 1) none seed initState
          (by omega))
  · exact ⟨by decide, by decide, by decide, by decide, by decide, by decide⟩

/-- C2: after a crawl from a fresh crawler, a URL has a Content Index entry
iff it is visited and its fetch (and parse) succeeds; when the seed's fetch
fails the crawl still returns normally with the seed visited, an empty index,
and exactly one fetch attempt. -/
theorem index_entry_iff_fetch_ok :
    (∀ (site : Site) (seed u : String),
      u ∈ (crawlTop site seed).index.map Prod.fst ↔
        u ∈ (crawlTop site seed).visited ∧ (site.fetch u).isOk = true) ∧
    (∀ (site : Site) (seed : String) (e : CrawlError),
      site.fetch seed = Except.error e →
      (crawlTop site seed).visited = [seed] ∧
      (crawlTop site seed).index = [] ∧
      (crawlTop site seed).fetchLog = [seed]) := by
  constructor
  · intro site seed u
    exact (crawl_good site (site.pages.length + 1) none seed initState
      (initState_good site)).1 u
  · intro site seed e he
    unfold crawlTop
    rw [crawl_succ_error he (List.not_mem_nil seed)]
    exact ⟨rfl, rfl, rfl⟩

theorem index_entry_iff_fetch_ok_witness :
    ("u" ∈ (crawlTop failSite "s").index.map Prod.fst ↔
      "u" ∈ (crawlTop failSite "s").visited ∧
        (failSite.fetch "u").isOk = true) ∧
    ((crawlTop failSite "s").visited = ["s"] ∧
     (crawlTop failSite "s").index = [] ∧
     (crawlTop failSite "s").fetchLog = ["s"]) :=
  ⟨index_entry_iff_fetch_ok.1 failSite "s" "u",
   index_entry_iff_fetch_ok.2 failSite "s" (CrawlError.request "connection error") rfl⟩

/-- C3: whatever failure the fetch/parse collaborator reports, the exception
escapes the `try` body (`crawlTry`) but both `except` handlers catch it, so
`crawl` itself returns normally, with the URL left marked visited and nothing
else changed; `crawl` returning a plain `CrawlerState` (never an
`Except.error`) is this totality by construction. -/
theorem crawl_returns_normally_on_error :
    ∀ (site : Site) (fuel : Nat) (base : Option String) (url : String)
      (st : CrawlerState) (e : CrawlError),
      url ∉ st.visited → site.fetch url = Except.error e →
      crawlTry site (fun b r s => crawl site fuel b r s) base url
          { st with visited := url :: st.visited,
                    fetchLog := st.fetchLog ++ [url] } = Except.error e ∧
      crawl site (fuel + 1) base url st =
        { st with visited := url :: st.visited,
                  fetchLog := st.fetchLog ++ [url] } := by
  intro site fuel base url st e hv he
  constructor
  · simp [crawlTry, he]
  · exact crawl_succ_error he hv

theorem crawl_returns_normally_on_error_witness :
    crawlTry failSite (fun b r s => crawl failSite 0 b r s) none "s"
        (⟨[], ["s"], ["s"]⟩ : CrawlerState) =
      Except.error (CrawlError.request "connection error") ∧
    crawl failSite 1 none "s" initState = (⟨[], ["s"], ["s"]⟩ : CrawlerState) :=
  crawl_returns_normally_on_error failSite 0 none "s" initState
    (CrawlError.request "connection error") (List.not_mem_nil _) rfl

/-- C4: crawling an already-visited URL is a no-op (no fetch, identical
state), so a second `crawl(seed)` on the same engine changes nothing and
performs no additional fetches, and `tryMark` succeeds at most once per
URL. -/
theorem crawl_idempotent :
    ∀ (site : Site) (fuel fuel' : Nat) (base : Option String) (url : String)
      (st : CrawlerState),
      (url ∈ st.visited → crawl site fuel base url st = st) ∧
      (1 ≤ fuel' →
        crawl site fuel base url (crawl site fuel' base url st) =
          crawl site fuel' base url st) ∧
      ((tryMark url st).1 = true → (tryMark url (tryMark url st).2).1 = false) := by
  intro site fuel fuel' base url st
  have h1 : ∀ (f : Nat) (s : CrawlerState), url ∈ s.visited →
      crawl site f base url s = s := by
    intro f s hv
    cases f with
    | zero => rfl
    | succ f0 => exact crawl_succ_visited hv
  refine ⟨h1 fuel st,
    fun hf => h1 fuel _ (@crawl_visits site fuel' base url st hf),
    fun ht => ?_⟩
  by_cases hv : url ∈ st.visited
  · rw [tryMark, if_pos hv] at ht
    exact absurd ht (by simp)
  · simp [tryMark, hv]

theorem crawl_idempotent_witness :
    crawl failSite 1 none "s" (⟨[], ["s"], ["s"]⟩ : CrawlerState) =
      (⟨[], ["s"], ["s"]⟩ : CrawlerState) ∧
    crawl failSite 1 none "s" (crawl failSite 1 none "s" initState) =
      crawl failSite 1 none "s" initState ∧
    (tryMark "s" (tryMark "s" initState).2).1 = false :=
  ⟨(crawl_idempotent failSite 1 1 none "s" ⟨[], ["s"], ["s"]⟩).1 (by decide),
   (crawl_idempotent failSite 1 1 none "s" initState).2.1 (by decide),
   (crawl_idempotent failSite 1 1 none "s" initState).2.2 (by decide)⟩

/-- C5: `search` returns exactly the URLs whose indexed text contains the
lowercased keyword as a substring of the lowercased text, in the index's
insertion order (a sublist of the key sequence); the empty keyword matches
every entry and searching an empty index yields the empty list; the §8
case-insensitivity scenario holds. -/
theorem search_spec :
    ∀ (idx : List (String × String)) (kw u t : String),
      (u ∈ search idx kw ↔ ∃ x, (u, x) ∈ idx ∧ lowerContains x kw = true) ∧
      (lowerContains t kw = true ↔
        kw.data.map Char.toLower <:+: t.data.map Char.toLower) ∧
      List.Sublist (search idx kw) (idx.map Prod.fst) ∧
      search idx "" = idx.map Prod.fst ∧
      search ([] : List (String × String)) kw = [] ∧
      search [("u", "KEYWORD here")] "keyword" = ["u"] :=
  fun idx kw u t =>
    ⟨search_mem idx kw u, lowerContains_iff t kw, search_sublist idx kw,
     search_empty_keyword idx, rfl, by decide⟩

/-- C6: a URL that does not start with the scope prefix is never added to the
Visited Set or the Content Index by a top-level crawl (the seed itself always
shares its own prefix). -/
theorem external_links_never_added :
    ∀ (site : Site) (seed u : String),
      inScope u seed = false →
      u ∉ (crawlTop site seed).visited ∧
        u ∉ (crawlTop site seed).index.map Prod.fst := by
  intro site seed u hscope
  constructor
  · intro hu
    rcases (crawl_scope site (site.pages.length + 1) none seed initState u).1 hu
      with h | h | h
    · exact List.not_mem_nil u h
    · subst h
      rw [inScope_refl] at hscope
      cases hscope
    · have h' : inScope u seed = true := h
      rw [hscope] at h'
      cases h'
  · intro hu
    rcases (crawl_scope site (site.pages.length + 1) none seed initState u).2 hu
      with h | h | h
    · simp [initState] at h
    · subst h
      rw [inScope_refl] at hscope
      cases hscope
    · have h' : inScope u seed = true := h
      rw [hscope] at h'
      cases h'

theorem external_links_never_added_witness :
    inScope "https://external.com" "https://example.com" = false ∧
    "https://external.com" ∉ (crawlTop scenarioSite "https://example.com").visited ∧
    "https://external.com" ∉
      (crawlTop scenarioSite "https://example.com").index.map Prod.fst := by
  have h := external_links_never_added scenarioSite "https://example.com"
    "https://external.com" (by decide)
  exact ⟨by decide, h.1, h.2⟩

/-- C7: a fragment-only href resolves to the base URL with the fragment
appended, is in scope, and is crawled as a URL distinct from the bare base
(the fetch log shows two separate fetches); in the §8 seed scenario the
visited set contains the seed, `/about` and `/about#frag` resolved absolute,
but not the external link. -/
theorem fragment_links_scenario :
    urljoinModel "https://example.com" "#section" =
      "https://example.com#section" ∧
    urljoinModel "https://example.com" "/about#frag" =
      "https://example.com/about#frag" ∧
    inScope "https://example.com#section" "https://example.com" = true ∧
    "https://example.com#section" ≠ "https://example.com" ∧
    (crawlTop fragSite "https://example.com").fetchLog =
      ["https://example.com", "https://example.com#section"] ∧
    "https://example.com#section" ∈
      (crawlTop fragSite "https://example.com").visited ∧
    "https://example.com" ∈
      (crawlTop scenarioSite "https://example.com").visited ∧
    "https://example.com/about" ∈
      (crawlTop scenarioSite "https://example.com").visited ∧
    "https://example.com/about#frag" ∈
      (crawlTop scenarioSite "https://example.com").visited ∧
    "https://external.com" ∉
      (crawlTop scenarioSite "https://example.com").visited := by
  refine ⟨by decide, by decide, by decide, by decide, by decide, by decide,
    by decide, by decide, by decide, by decide⟩

/-- C8: the in-scope test is a literal string-prefix check — no independent
parsing of host or path — so `https://example.com.evil.com` is treated as
in-scope for base `https://example.com` and actually gets crawled and
fetched. -/
theorem inScope_literal_prefix :
    (∀ (url basePrefix : String),
      inScope url basePrefix = true ↔ basePrefix.data <+: url.data) ∧
    inScope "https://example.com.evil.com" "https://example.com" = true ∧
    "https://example.com.evil.com" ∈
      (crawlTop evilSite "https://example.com").visited ∧
    "https://example.com.evil.com" ∈
      (crawlTop evilSite "https://example.com").fetchLog :=
  ⟨fun url basePrefix => charsPre_iff basePrefix.data url.data,
   by decide, by decide, by decide⟩

/-- C9: the Content Index's keys are always a subset of the Visited Set: the
property is preserved by every `crawl` call (covering every intermediate
state, each of which is such a call's result) and holds absolutely for a
top-level crawl from a fresh crawler. -/
theorem index_keys_subset_visited :
    (∀ (site : Site) (fuel : Nat) (base : Option String) (url : String)
      (st : CrawlerState),
      (∀ u, u ∈ st.index.map Prod.fst → u ∈ st.visited) →
      ∀ u, u ∈ (crawl site fuel base url st).index.map Prod.fst →
        u ∈ (crawl site fuel base url st).visited) ∧
    (∀ (site : Site) (seed u : String),
      u ∈ (crawlTop site seed).index.map Prod.fst →
        u ∈ (crawlTop site seed).visited) := by
  constructor
  · exact fun site fuel base url st h => crawl_keysSub site fuel base url st h
  · intro site seed u h
    exact crawl_keysSub site (site.pages.length + 1) none seed initState
      (fun v hv => absurd hv (by simp [initState])) u h

theorem index_keys_subset_visited_witness :
    "https://s" ∈ (crawlTop chainSite "https://s").visited :=
  index_keys_subset_visited.2 chainSite "https://s" "https://s" (by decide)

/-- C10: the scope filter applies only to links discovered on pages, never to
`crawl`'s own argument: an unvisited URL that does not start with the supplied
base is still marked, fetched, and (on success) indexed. -/
theorem crawl_argument_unfiltered :
    ∀ (site : Site) (fuel : Nat) (b url : String) (st : CrawlerState)
      (pg : Page),
      url ∉ st.visited → site.fetch url = Except.ok pg →
      inScope url b = false →
      (∀ u, u ∈ st.index.map Prod.fst → u ∈ st.visited) →
      url ∈ (crawl site (fuel + 1) (some b) url st).visited ∧
      url ∈ (crawl site (fuel + 1) (some b) url st).fetchLog ∧
      (url, pg.text) ∈ (crawl site (fuel + 1) (some b) url st).index := by
  intro site fuel b url st pg hv hfetch hscope hinv
  rw [crawl_succ_ok hfetch hv]
  have hle := crawlLinks_stateLe site
    (fun r s => crawl site fuel (some (effBase (some b) url)) r s)
    (effBase (some b) url)
    (fun r s => crawl_stateLe site fuel (some (effBase (some b) url)) r s)
    pg.hrefs
    { st with index := indexPut st.index url pg.text,
              visited := url :: st.visited,
              fetchLog := st.fetchLog ++ [url] }
  refine ⟨hle.visited_sub url (List.mem_cons_self _ _),
    hle.log_sub url (List.mem_append_right _ (List.mem_singleton.mpr rfl)),
    hle.entry_stable url pg.text ?_ (List.mem_cons_self _ _)⟩
  exact indexPut_self_of_not_mem (fun hk => hv (hinv url hk))

theorem crawl_argument_unfiltered_witness :
    "https://s" ∈ (crawl chainSite 3 (some "zzz") "https://s" initState).visited ∧
    "https://s" ∈ (crawl chainSite 3 (some "zzz") "https://s" initState).fetchLog ∧
    ("https://s", "text a") ∈
      (crawl chainSite 3 (some "zzz") "https://s" initState).index :=
  crawl_argument_unfiltered chainSite 2 "zzz" "https://s" initState
    ⟨"text a", [some "https://s/b"]⟩ (by decide) rfl (by decide)
    (by decide)
